import Mathlib

/-!
Verification of the `event-ually` browsing-analysis backend.

This file shallowly embeds the Python modules
`backend/commands/daily_review/categorizer.py`,
`backend/commands/daily_review/visit_analyzer.py`,
`backend/commands/daily_review/chrome_reader.py` (timestamp conversion),
`backend/browsing_stats.py` and the browsing-stats endpoint of
`backend/app.py` into Lean, and proves the specified properties about the
embedded definitions.

Modelling conventions:
- Python `dict`s are embedded as association lists in insertion order
  (`List (String × _)`); `dict.get`/`in` become `List.lookup`.
- Python `datetime` instants are embedded as integers (seconds); the
  Chrome-timestamp conversion, whose whole point is sub-second arithmetic,
  is instead modelled exactly, including the binary64 floating-point
  rounding the Python code performs (see `roundDouble` below).
- Python strings are embedded as `String`, but string operations are
  implemented over the underlying character lists so that every
  definition evaluates inside the kernel.
- The remote classifier (`anthropic` API call) and the environment (clock,
  calendar formatting, history database) are embedded as explicit
  oracle parameters, since they are external effects.
-/

/-! ## Generic string helpers (models of the Python `str` operations used) -/

/-- Model of the Python substring test `pat in s`. -/
def strContains (s pat : String) : Bool :=
  s.data.tails.any (fun t => pat.data.isPrefixOf t)

/-- Model of Python `str.lower()` (the inputs are ASCII domain names and titles). -/
def strLower (s : String) : String := ⟨s.data.map Char.toLower⟩

/-- Model of Python `' '.join(l)`. -/
def joinSpace (l : List String) : String :=
  ⟨List.intercalate [' '] (l.map String.data)⟩

/-- Model of Python `s.startswith(p)`. -/
def strStartsWith (s p : String) : Bool := p.data.isPrefixOf s.data

/-- Model of Python `s[n:]` for a character count `n`. -/
def strDropLeft (s : String) (n : ℕ) : String := ⟨s.data.drop n⟩

/-! ## Association-list helpers (models of Python `dict` update patterns) -/

/-- Model of the Python pattern
`if k not in m: m[k] = i` followed by an in-place update `m[k] = f m[k]`:
the value at `k` is updated by `f` (starting from `i` if `k` is absent,
in which case the key is appended in insertion order). -/
def updateAssoc {A : Type} (m : List (String × A)) (k : String) (f : A → A) (i : A) :
    List (String × A) :=
  match m with
  | [] => [(k, f i)]
  | (k2, a) :: rest => if k2 = k then (k2, f a) :: rest else (k2, a) :: updateAssoc rest k f i

/-- Sum of `f` over a list (used for the sum laws). -/
def sumBy {A : Type} (l : List A) (f : A → ℤ) : ℤ := (l.map f).sum

/-- Stable insertion into a list sorted descending by `key`
(equal keys keep encounter order). -/
def insertDescBy {A : Type} (key : A → ℤ) (x : A) : List A → List A
  | [] => [x]
  | y :: ys => if key y < key x then x :: y :: ys else y :: insertDescBy key x ys

/-- Model of Python `sorted(l, key=key, reverse=True)` / `l.sort(key=key, reverse=True)`:
a stable sort descending by `key`. -/
def sortDescBy {A : Type} (key : A → ℤ) (l : List A) : List A :=
  l.foldr (insertDescBy key) []

/-! ## Categorizer (`backend/commands/daily_review/categorizer.py`) -/

/-- The closed category set: the keys of the `CATEGORIES` table. -/
def categoryNames : List String :=
  ["video", "development", "social_media", "news", "productivity",
   "shopping", "entertainment", "search", "reference", "other"]

/-- The `DOMAIN_PATTERNS` table, in declaration order. -/
def DOMAIN_PATTERNS : List (String × List String) :=
  [("video", ["youtube.com", "vimeo.com", "twitch.tv", "netflix.com", "hulu.com",
              "disneyplus.com", "hbomax.com"]),
   ("development", ["github.com", "stackoverflow.com", "gitlab.com", "dev.to",
                    "npmjs.com", "pypi.org", "docs.python.org", "developer.mozilla.org"]),
   ("social_media", ["twitter.com", "x.com", "facebook.com", "instagram.com",
                     "linkedin.com", "reddit.com", "tiktok.com", "snapchat.com"]),
   ("news", ["nytimes.com", "bbc.com", "cnn.com", "techcrunch.com", "theverge.com",
             "wired.com", "arstechnica.com"]),
   ("productivity", ["gmail.com", "outlook.com", "mail.google.com", "notion.so",
                     "slack.com", "asana.com", "trello.com", "monday.com"]),
   ("shopping", ["amazon.com", "ebay.com", "etsy.com", "walmart.com", "target.com",
                 "alibaba.com"]),
   ("entertainment", ["spotify.com", "soundcloud.com", "apple.com/music", "pandora.com"]),
   ("search", ["google.com", "bing.com", "duckduckgo.com", "yahoo.com"]),
   ("reference", ["wikipedia.org", "wikihow.com", "britannica.com"])]

/-- The video keywords checked against joined titles in `heuristic_categorize`. -/
def videoKeywords : List String := ["video", "watch", "episode", "movie", "film"]

/-- Model of `heuristic_categorize(domain, titles)`: first category (in declaration order)
one of whose patterns is a substring of the lowercased domain; otherwise `"video"`
if the joined lowercased titles contain a video keyword; otherwise `"other"`. -/
def heuristic_categorize (domain : String) (titles : List String) : String :=
  let domain_lower := strLower domain
  match DOMAIN_PATTERNS.find? (fun p => p.2.any (fun pat => strContains domain_lower pat)) with
  | some p => p.1
  | none =>
    if titles.isEmpty then "other"
    else
      let titles_text := strLower (joinSpace titles)
      if videoKeywords.any (fun k => strContains titles_text k) then "video" else "other"

/-- Batching of the uncategorized list: `range(0, len(l), 20)` slices of 20,
as in `categorize_domains_with_ai`. -/
def chunks20 {A : Type} (l : List A) : List (List A) :=
  match l with
  | [] => []
  | x :: xs => (x :: xs).take 20 :: chunks20 ((x :: xs).drop 20)
termination_by l.length
decreasing_by
  simp only [List.length_drop, List.length_cons]
  omega

/-- Per-domain aggregate produced by `aggregate_by_domain` (`visit_analyzer.py`);
`titles` models the Python set of distinct non-empty titles as a deduplicated
list in insertion order. -/
structure DomData where
  domain : String
  total_duration : ℤ
  visit_count : ℕ
  urls : List (String × String × ℤ × ℤ)
  titles : List String
deriving DecidableEq

/-- Model of `categorize_domains_with_ai(domain_data)`.  The remote classifier
(`batch_categorize_with_ai`, which returns `{}` on any failure) is the
oracle parameter `ai`; a batch is a list of `(domain, titles)` pairs and a
response is a domain→category association list. -/
def categorize_domains_with_ai
    (ai : List (String × List String) → List (String × String))
    (domain_data : List (String × DomData)) : List (String × String) :=
  -- First pass: heuristics; domains left at "other" are deferred.
  let firstPass := domain_data.filterMap (fun p =>
    let category := heuristic_categorize p.1 p.2.titles
    if category = "other" then none else some (p.1, category))
  let uncategorized := domain_data.filterMap (fun p =>
    if heuristic_categorize p.1 p.2.titles = "other" then some (p.1, p.2.titles) else none)
  -- Second pass: batches of 20 to the remote classifier, falling back to the
  -- heuristic for any domain missing from the response.
  if uncategorized.isEmpty then firstPass
  else
    firstPass ++ (chunks20 uncategorized).flatMap (fun batch =>
      let ai_results := ai batch
      batch.map (fun q =>
        match ai_results.lookup q.1 with
        | some c => (q.1, c)
        | none => (q.1, heuristic_categorize q.1 q.2)))

/-- One member-domain record inside a category aggregate. -/
structure CatDomEntry where
  domain : String
  duration : ℤ
  visit_count : ℕ
  titles : List String
deriving DecidableEq

/-- A category aggregate produced by `aggregate_by_category`. -/
structure CatData where
  category : String
  total_duration : ℤ
  visit_count : ℕ
  domains : List CatDomEntry
deriving DecidableEq

/-- Adding one domain's data to a category aggregate
(the body of the loop in `aggregate_by_category`). -/
def addDomainToCategory (domain : String) (data : DomData) (c : CatData) : CatData :=
  { c with
    total_duration := c.total_duration + data.total_duration,
    visit_count := c.visit_count + data.visit_count,
    domains := c.domains ++ [⟨domain, data.total_duration, data.visit_count, data.titles⟩] }

/-- The zero category aggregate created when a category key is first seen. -/
def emptyCatData (category : String) : CatData := ⟨category, 0, 0, []⟩

/-- Model of `aggregate_by_category(domain_data, categorization)`: group the domain
aggregates by `categorization.get(domain, 'other')`, then sort each category's
member domains descending by duration. -/
def aggregate_by_category (domain_data : List (String × DomData))
    (categorization : List (String × String)) : List (String × CatData) :=
  let category_data := domain_data.foldl (fun m p =>
    let category := (categorization.lookup p.1).getD "other"
    updateAssoc m category (addDomainToCategory p.1 p.2) (emptyCatData category)) []
  category_data.map (fun p =>
    (p.1, { p.2 with domains := sortDescBy (fun d => d.duration) p.2.domains }))

/-! ## Visit analyzer (`backend/commands/daily_review/visit_analyzer.py`) -/

/-- Constant `MAX_VISIT_TIME`: 30 minutes in seconds. -/
def MAX_VISIT_TIME : ℤ := 1800

/-- Constant `DEFAULT_FINAL_VISIT`: 1 minute for the last visit in a sequence. -/
def DEFAULT_FINAL_VISIT : ℤ := 60

/-- Constant `SESSION_GAP`: 30 minutes; a gap larger than this indicates a new session. -/
def SESSION_GAP : ℤ := 1800

/-- A visit record.  `visit_time` models the `datetime` instant as a count of
seconds; `duration_seconds` models the dict key added by
`estimate_visit_duration` (and read back with default 0 by
`aggregate_by_domain`). -/
structure Visit where
  url : String
  title : String
  visit_time : ℤ
  duration_seconds : ℤ := 0
deriving DecidableEq

/-- The ordering used by `sorted(visits, key=lambda v: v['visit_time'])`. -/
def visitTimeLE (a b : Visit) : Prop := a.visit_time ≤ b.visit_time

instance : DecidableRel visitTimeLE := fun a b => Int.decLe a.visit_time b.visit_time

instance : IsTotal Visit visitTimeLE := ⟨fun a b => Int.le_total a.visit_time b.visit_time⟩

instance : IsTrans Visit visitTimeLE := ⟨fun _ _ _ h1 h2 => le_trans h1 h2⟩

/-- A stable sort of visits ascending by time (model of Python `sorted`). -/
def sortVisits (visits : List Visit) : List Visit := List.insertionSort visitTimeLE visits

/-- Duration assigned to `current` given its successor `next`
(the body of the loop in `estimate_visit_duration` for a non-final visit):
the gap capped at `MAX_VISIT_TIME`, forced to `MAX_VISIT_TIME` past
`SESSION_GAP`, and clamped at 0. -/
def visitDuration (current next : Visit) : ℤ :=
  let time_diff := next.visit_time - current.visit_time
  let duration := if time_diff > SESSION_GAP then MAX_VISIT_TIME else min time_diff MAX_VISIT_TIME
  max 0 duration

/-- The annotation loop of `estimate_visit_duration` over the sorted list:
every visit with a successor gets `visitDuration`, the final visit gets
`max 0 DEFAULT_FINAL_VISIT`. -/
def assignDurations : List Visit → List Visit
  | [] => []
  | [v] => [{ v with duration_seconds := max 0 DEFAULT_FINAL_VISIT }]
  | v :: w :: rest =>
    { v with duration_seconds := visitDuration v w } :: assignDurations (w :: rest)

/-- Model of `estimate_visit_duration(visits)`: return `visits` unchanged when empty,
otherwise sort ascending by time and annotate each visit with
`duration_seconds`. -/
def estimate_visit_duration (visits : List Visit) : List Visit :=
  if visits.isEmpty then visits else assignDurations (sortVisits visits)

/-- Characters allowed after the first character of a URL scheme. -/
def isSchemeChar (c : Char) : Bool := c.isAlphanum || c == '+' || c == '-' || c == '.'

/-- Scan for the end of a `scheme:` prefix; `some rest` is the text after the
colon, `none` means the prefix is not a valid scheme. -/
def dropSchemeAux : List Char → Option (List Char)
  | [] => none
  | c :: cs => if c == ':' then some cs else if isSchemeChar c then dropSchemeAux cs else none

/-- Model of `urllib.parse.urlparse(url).netloc`: strip a valid `scheme:`
prefix; the netloc is the text after a leading `//`, up to the first
`/`, `?` or `#`; without a leading `//` the netloc is empty. -/
def urlparseNetloc (url : String) : String :=
  let l := url.data
  let rest :=
    match l with
    | [] => l
    | c :: cs =>
      if c.isAlpha then (match dropSchemeAux cs with | some r => r | none => l) else l
  match rest with
  | '/' :: '/' :: r => ⟨r.takeWhile (fun c => !(c == '/' || c == '?' || c == '#'))⟩
  | _ => ""

/-- Model of `extract_domain(url)`: the URL's netloc with a leading `www.` stripped,
or `"unknown"` when empty. -/
def extract_domain (url : String) : String :=
  let domain := urlparseNetloc url
  let domain := if strStartsWith domain "www." then strDropLeft domain 4 else domain
  if domain = "" then "unknown" else domain

/-- Model of adding a title to the Python `set` of titles
(deduplicated, kept in insertion order). -/
def insertSet (l : List String) (x : String) : List String :=
  if x ∈ l then l else l ++ [x]

/-- The loop body of `aggregate_by_domain`: fold one visit into its domain's
aggregate. -/
def addVisitToDomain (v : Visit) (d : DomData) : DomData :=
  { d with
    total_duration := d.total_duration + v.duration_seconds,
    visit_count := d.visit_count + 1,
    urls := d.urls ++ [(v.url, v.title, v.visit_time, v.duration_seconds)],
    titles := if v.title = "" then d.titles else insertSet d.titles v.title }

/-- The zero domain aggregate created when a domain is first seen. -/
def emptyDomData (domain : String) : DomData := ⟨domain, 0, 0, [], []⟩

/-- Model of `aggregate_by_domain(visits)`: fold every visit into the aggregate of its
extracted domain (keys in first-encounter order, as for a Python dict). -/
def aggregate_by_domain (visits : List Visit) : List (String × DomData) :=
  visits.foldl (fun m v =>
    updateAssoc m (extract_domain v.url) (addVisitToDomain v)
      (emptyDomData (extract_domain v.url))) []

/-- Model of `format_duration(seconds)` for the non-negative durations the pipeline
produces: `"Ns"` under a minute, `"Nm"` under an hour, else `"Hh"` with a
`" Mm"` segment exactly when the residual minutes are nonzero. -/
def format_duration (seconds : ℕ) : String :=
  if seconds < 60 then toString seconds ++ "s"
  else
    let minutes := seconds / 60
    if minutes < 60 then toString minutes ++ "m"
    else
      let hours := minutes / 60
      let remaining_minutes := minutes % 60
      if remaining_minutes = 0 then toString hours ++ "h"
      else toString hours ++ "h " ++ toString remaining_minutes ++ "m"

/-! ## Chrome timestamp conversion (`backend/commands/daily_review/chrome_reader.py`)

`convert_chrome_timestamp` computes
`unix_timestamp = (chrome_time / 1000000) - 11644473600` in Python, where
`/` is *float* (IEEE-754 binary64) true division.  To settle whether that
arithmetic is exact we model binary64 values and their round-to-nearest-even
rounding exactly, over an explicit unnormalized-fraction representation
(`Frac`), which the kernel can evaluate. -/

/-- An unnormalized rational `num / den` (`den > 0` for every value built
below).  No gcd normalization is performed, so all operations reduce inside
the kernel. -/
structure Frac where
  num : ℤ
  den : ℤ
deriving DecidableEq

/-- The rational value of a `Frac`. -/
def fracVal (a : Frac) : ℚ := (a.num : ℚ) / (a.den : ℚ)

/-- Exact subtraction. -/
def fracSub (a b : Frac) : Frac := ⟨a.num * b.den - b.num * a.den, a.den * b.den⟩

/-- Comparison (valid for positive denominators). -/
def fracLT (a b : Frac) : Bool := decide (a.num * b.den < b.num * a.den)

/-- Floor (valid for positive denominators). -/
def fracFloor (a : Frac) : ℤ := a.num.fdiv a.den

/-- The power `2 ^ k` as a `Frac`, for `k : ℤ`. -/
def fracPow2 (k : ℤ) : Frac :=
  if 0 ≤ k then ⟨2 ^ k.toNat, 1⟩ else ⟨1, 2 ^ (-k).toNat⟩

/-- Exact multiplication by `2 ^ k`. -/
def fracMulPow2 (a : Frac) (k : ℤ) : Frac :=
  if 0 ≤ k then ⟨a.num * 2 ^ k.toNat, a.den⟩ else ⟨a.num, a.den * 2 ^ (-k).toNat⟩

/-- Floor of log2 of `n` (`0` for `n ≤ 1`), with explicit fuel. -/
def natLog2F : ℕ → ℕ → ℕ
  | 0, _ => 0
  | f + 1, n => if n ≥ 2 then natLog2F f (n / 2) + 1 else 0

/-- Greatest `k` with `2 ^ k ≤ a`, for a positive `Frac` `a` whose numerator
and denominator fit in 256 bits (amply true of every value arising here). -/
def fracFloorLog2 (a : Frac) : ℤ :=
  let c : ℤ := (natLog2F 256 a.num.toNat : ℤ) - (natLog2F 256 a.den.toNat : ℤ)
  if fracLT a (fracPow2 c) then c - 1 else c

/-- Round a rational to the nearest integer, ties to even
(the IEEE-754 default rounding applied to the scaled significand). -/
def roundHalfEven (a : Frac) : ℤ :=
  let f := fracFloor a
  let t := a.num - f * a.den    -- fractional part is t / den
  if 2 * t < a.den then f
  else if a.den < 2 * t then f + 1
  else if f % 2 = 0 then f else f + 1

/-- Round a rational to the nearest IEEE-754 binary64 value
(round-to-nearest-even, 53-bit significand; overflow and subnormals cannot
occur at the magnitudes involved in timestamp conversion). -/
def roundDouble (a : Frac) : Frac :=
  if a.num = 0 then ⟨0, 1⟩
  else
    let s : ℤ := if a.num < 0 then -1 else 1
    let p : Frac := ⟨s * a.num, a.den⟩
    let e := fracFloorLog2 p
    let m := roundHalfEven (fracMulPow2 p (52 - e))
    fracMulPow2 ⟨s * m, 1⟩ (e - 52)

/-- The epoch offset between 1601-01-01 and 1970-01-01, in seconds
(the constant `11644473600` in `convert_chrome_timestamp`). -/
def CHROME_EPOCH_OFFSET : ℤ := 11644473600

/-- Model of `convert_chrome_timestamp(chrome_time)`: the `unix_timestamp` value the
Python code hands to `datetime.fromtimestamp`, computed as the code computes
it — `chrome_time / 1000000` by correctly-rounded binary64 true division,
then binary64 subtraction of `11644473600` (exactly representable). -/
def convert_chrome_timestamp (chrome_time : ℤ) : Frac :=
  fracSub (roundDouble ⟨chrome_time, 1000000⟩) ⟨CHROME_EPOCH_OFFSET, 1⟩ |> roundDouble

/-- The conversion the spec prescribes ("microseconds since an epoch offset by
exactly 11,644,473,600 seconds from the Unix epoch; conversion must use exact
integer arithmetic"): the exact rational `chrome_time / 10^6 − 11644473600`,
with no rounding.  Stated from the spec's words for comparison with
`convert_chrome_timestamp`. -/
def chrome_to_unix_exact (chrome_time : ℤ) : ℚ :=
  (chrome_time : ℚ) / 1000000 - (CHROME_EPOCH_OFFSET : ℚ)

/-! ## Stats service (`backend/browsing_stats.py`, `backend/app.py`) -/

/-- A character is uppercased by `str.title()` when it starts a word. -/
def titleChars : Bool → List Char → List Char
  | _, [] => []
  | prevAlpha, c :: cs =>
    (if c.isAlpha then (if prevAlpha then c.toLower else c.toUpper) else c) ::
      titleChars c.isAlpha cs

/-- Model of `name.replace('_', ' ').title()` applied to category names. -/
def titleCaseCategory (s : String) : String :=
  ⟨titleChars false (s.data.map (fun c => if c == '_' then ' ' else c))⟩

/-- Model of `int(part / total * 100)` for the non-negative values that occur
(the float arithmetic is modelled exactly; the result is the integer
percentage floor). -/
def intPercent (part total : ℤ) : ℤ := (part * 100) / total

/-- The `top_category` record of a daily stat. -/
structure TopCategory where
  name : String
  time : ℤ
  percentage : ℤ
deriving DecidableEq

/-- One entry of the `categories` breakdown of a daily stat. -/
structure CatBreakdownEntry where
  time : ℤ
  visits : ℕ
  percentage : ℤ
deriving DecidableEq

/-- One element of the list returned by `get_daily_stats`; `error` models the
presence of the `'error'` key. -/
structure DailyStat where
  date : String
  day_name : String
  total_time : ℤ
  total_visits : ℕ
  unique_sites : ℕ
  top_category : Option TopCategory
  categories : List (String × CatBreakdownEntry)
  error : Option String
deriving DecidableEq

/-- The external world of `get_daily_stats`: the Chrome history reader (which
may raise, modelled as `Except`), the remote classifier, and the local
calendar (`datetime.now() - timedelta(days=offset)` with its day bounds and
`strftime` renderings).  All pure-Python computation is embedded directly;
only these effects are oracle parameters. -/
structure StatsEnv where
  readHistory : ℕ → Except String (List Visit)
  ai : List (String × List String) → List (String × String)
  startOfDay : ℕ → ℤ
  endOfDay : ℕ → ℤ
  dateStr : ℕ → String
  dayName : ℕ → String

/-- The zero-value `DailyStat` with an error annotation appended by the
`except` branch of `get_daily_stats`. -/
def errorDayStat (env : StatsEnv) (day_offset : ℕ) (e : String) : DailyStat :=
  { date := env.dateStr day_offset, day_name := env.dayName day_offset,
    total_time := 0, total_visits := 0, unique_sites := 0,
    top_category := none, categories := [], error := some e }

/-- The zero-value `DailyStat` appended when a day has no visits. -/
def emptyDayStat (env : StatsEnv) (day_offset : ℕ) : DailyStat :=
  { date := env.dateStr day_offset, day_name := env.dayName day_offset,
    total_time := 0, total_visits := 0, unique_sites := 0,
    top_category := none, categories := [], error := none }

/-- One iteration of the loop in `get_daily_stats`: read a
`24 * (day_offset + 1)` hour window, filter to the day's bounds, and either
produce the empty stat, run the full pipeline, or (on a read failure) produce
the error-annotated zero stat. -/
def processDay (env : StatsEnv) (day_offset : ℕ) : DailyStat :=
  match env.readHistory (24 * (day_offset + 1)) with
  | .error e => errorDayStat env day_offset e
  | .ok visits =>
    let day_visits := visits.filter (fun v =>
      decide (env.startOfDay day_offset ≤ v.visit_time) &&
      decide (v.visit_time ≤ env.endOfDay day_offset))
    if day_visits.isEmpty then emptyDayStat env day_offset
    else
      let visits_with_duration := estimate_visit_duration day_visits
      let domain_data := aggregate_by_domain visits_with_duration
      let categories := categorize_domains_with_ai env.ai domain_data
      let category_data := aggregate_by_category domain_data categories
      let total_time := sumBy domain_data (fun p => p.2.total_duration)
      let total_visits := day_visits.length
      let unique_sites := domain_data.length
      -- `sorted(category_data.items(), key=..., reverse=True)`; the two
      -- emptiness guards collapse to `head?`.
      let sorted_categories := sortDescBy (fun p => p.2.total_duration) category_data
      let top_category := sorted_categories.head?.map (fun p =>
        { name := titleCaseCategory p.1, time := p.2.total_duration,
          percentage := if 0 < total_time then intPercent p.2.total_duration total_time else 0 })
      let category_breakdown := category_data.map (fun p =>
        (titleCaseCategory p.1,
         ({ time := p.2.total_duration, visits := p.2.visit_count,
            percentage := if 0 < total_time then intPercent p.2.total_duration total_time
              else 0 } : CatBreakdownEntry)))
      { date := env.dateStr day_offset, day_name := env.dayName day_offset,
        total_time := total_time, total_visits := total_visits,
        unique_sites := unique_sites, top_category := top_category,
        categories := category_breakdown, error := none }

/-- Model of `get_daily_stats(days)`: the loop `for day_offset in range(days)`, each
iteration appending exactly one `DailyStat`. -/
def get_daily_stats (env : StatsEnv) (days : ℕ) : List DailyStat :=
  (List.range days).map (processDay env)

/-- The `/api/browsing-history/daily` endpoint of `app.py`:
`days = min(days, 30)` before calling `get_daily_stats` (a negative request
yields an empty loop, like Python `range`). -/
def get_daily_browsing_stats (env : StatsEnv) (days : ℤ) : List DailyStat :=
  get_daily_stats env (min days 30).toNat

/-- One entry of the weekly category union (`{'time': ..., 'visits': ...}`). -/
structure WeeklyCatEntry where
  time : ℤ
  visits : ℕ
deriving DecidableEq

/-- The record returned by `get_weekly_summary`.  `avg_daily_time` is a float
in Python (`total_time / 7`); it is modelled as the exact rational. -/
structure WeeklySummary where
  period : String
  total_time : ℤ
  total_visits : ℕ
  avg_daily_time : ℚ
  days_with_data : ℕ
  top_category : Option TopCategory
  categories : List (String × WeeklyCatEntry)
  daily_breakdown : List DailyStat

/-- Model of `get_weekly_summary()`: reduce `get_daily_stats(7)` — sum times and
visits, divide the total by 7 (guarded only by the list being nonempty),
union-sum the per-day category breakdowns, pick the top category by summed
time, and count days with nonzero visits. -/
def get_weekly_summary (env : StatsEnv) : WeeklySummary :=
  let daily_stats := get_daily_stats env 7
  let total_time := sumBy daily_stats (fun d => d.total_time)
  let total_visits := (daily_stats.map (fun d => d.total_visits)).sum
  let avg_daily_time : ℚ := if daily_stats.isEmpty then 0 else (total_time : ℚ) / 7
  let all_categories := daily_stats.foldl (fun acc day =>
    day.categories.foldl (fun acc2 p =>
      updateAssoc acc2 p.1
        (fun c => { time := c.time + p.2.time, visits := c.visits + p.2.visits })
        ({ time := 0, visits := 0 } : WeeklyCatEntry)) acc) []
  let sorted_cats := sortDescBy (fun p => p.2.time) all_categories
  let top_category := sorted_cats.head?.map (fun p =>
    { name := p.1, time := p.2.time,
      percentage := if 0 < total_time then intPercent p.2.time total_time else 0 })
  { period := "Last 7 Days", total_time := total_time, total_visits := total_visits,
    avg_daily_time := avg_daily_time,
    days_with_data := (daily_stats.filter (fun d => 0 < d.total_visits)).length,
    top_category := top_category, categories := all_categories,
    daily_breakdown := daily_stats }

/-! ## General lemmas about the helper structures -/

theorem lookup_mem_pairs {B : Type} {l : List (String × B)} {k : String} {v : B}
    (h : l.lookup k = some v) : (k, v) ∈ l := by
  induction l with
  | nil => simp [List.lookup] at h
  | cons hd tl ih =>
    obtain ⟨k2, b⟩ := hd
    by_cases hk : k = k2
    · subst hk
      simp [List.lookup] at h
      subst h
      exact List.mem_cons_self _ _
    · have hb : (k == k2) = false := beq_eq_false_iff_ne.mpr hk
      simp only [List.lookup, hb] at h
      exact List.mem_cons_of_mem _ (ih h)

theorem chunks20_flatten {A : Type} (l : List A) : (chunks20 l).flatten = l := by
  induction l using chunks20.induct with
  | case1 => simp [chunks20]
  | case2 x xs ih =>
    rw [chunks20, List.flatten_cons, ih]
    exact List.take_append_drop 20 (x :: xs)

theorem insertDescBy_perm {A : Type} (key : A → ℤ) (x : A) (l : List A) :
    List.Perm (insertDescBy key x l) (x :: l) := by
  induction l with
  | nil => simp [insertDescBy]
  | cons y ys ih =>
    rw [insertDescBy]
    split
    · exact List.Perm.refl _
    · exact ((ih.cons y).trans (List.Perm.swap x y ys))

theorem sortDescBy_perm {A : Type} (key : A → ℤ) (l : List A) :
    List.Perm (sortDescBy key l) l := by
  induction l with
  | nil => simp [sortDescBy]
  | cons x xs ih =>
    have : sortDescBy key (x :: xs) = insertDescBy key x (sortDescBy key xs) := rfl
    rw [this]
    exact (insertDescBy_perm key x _).trans (ih.cons x)

theorem lookup_updateAssoc_self {A : Type} (m : List (String × A)) (k : String)
    (f : A → A) (i : A) :
    (updateAssoc m k f i).lookup k = some (f ((m.lookup k).getD i)) := by
  induction m with
  | nil => simp [updateAssoc, List.lookup]
  | cons hd tl ih =>
    obtain ⟨k2, a⟩ := hd
    by_cases hk : k2 = k
    · subst hk
      simp [updateAssoc, List.lookup]
    · have hb : (k == k2) = false := beq_eq_false_iff_ne.mpr (Ne.symm hk)
      simp [updateAssoc, hk, List.lookup, hb, ih]

theorem lookup_updateAssoc_other {A : Type} (m : List (String × A)) (k k2 : String)
    (f : A → A) (i : A) (h : k2 ≠ k) :
    (updateAssoc m k f i).lookup k2 = m.lookup k2 := by
  induction m with
  | nil =>
    have hb : (k2 == k) = false := beq_eq_false_iff_ne.mpr h
    simp [updateAssoc, List.lookup, hb]
  | cons hd tl ih =>
    obtain ⟨k3, a⟩ := hd
    by_cases hk : k3 = k
    · subst hk
      have hb : (k2 == k3) = false := beq_eq_false_iff_ne.mpr h
      simp [updateAssoc, List.lookup, hb]
    · by_cases hk2 : k2 = k3
      · subst hk2
        simp [updateAssoc, hk, List.lookup]
      · have hb : (k2 == k3) = false := beq_eq_false_iff_ne.mpr hk2
        simp [updateAssoc, hk, List.lookup, hb, ih]

theorem sumBy_updateAssoc {A : Type} (g : A → ℤ) (f : A → A) (i : A) (d : ℤ)
    (hf : ∀ a, g (f a) = g a + d) (hi : g i = 0) (m : List (String × A)) (k : String) :
    sumBy (updateAssoc m k f i) (fun p => g p.2) = sumBy m (fun p => g p.2) + d := by
  induction m with
  | nil => simp [updateAssoc, sumBy, hf, hi]
  | cons hd tl ih =>
    obtain ⟨k2, a⟩ := hd
    by_cases hk : k2 = k
    · simp only [updateAssoc, if_pos hk, sumBy, List.map_cons, List.sum_cons, hf]
      ring
    · simp only [updateAssoc, if_neg hk, sumBy, List.map_cons, List.sum_cons]
      have := ih
      simp only [sumBy] at this
      rw [this]
      ring

/-! ## C8: duration formatting -/

/-- C8.  `format_duration` renders seconds under a minute as `"Ns"`, under an
hour as `"Nm"` with `N = ⌊seconds/60⌋`, and otherwise as `"Hh"` or `"Hh Mm"`,
omitting the minutes segment exactly when the residual minutes are zero. -/
theorem format_duration_spec (seconds : ℕ) :
    (seconds < 60 → format_duration seconds = toString seconds ++ "s")
    ∧ (60 ≤ seconds → seconds < 3600 → format_duration seconds = toString (seconds / 60) ++ "m")
    ∧ (3600 ≤ seconds → seconds / 60 % 60 = 0 →
        format_duration seconds = toString (seconds / 60 / 60) ++ "h")
    ∧ (3600 ≤ seconds → seconds / 60 % 60 ≠ 0 →
        format_duration seconds
          = toString (seconds / 60 / 60) ++ "h " ++ toString (seconds / 60 % 60) ++ "m") := by
  simp only [format_duration]
  refine ⟨fun h => ?_, fun h1 h2 => ?_, fun h1 h2 => ?_, fun h1 h2 => ?_⟩ <;>
    split_ifs <;> first | rfl | omega

/-- Witness for C8 at the spec's example 3661 → "1h 1m". -/
theorem format_duration_spec_witness : format_duration 3661 = "1h 1m" :=
  ((format_duration_spec 3661).2.2.2 (by norm_num) (by norm_num)).trans (by decide)

/-! ## C4: the days parameter of the daily-stats operation is capped at 30 -/

/-- C4.  The `/api/browsing-history/daily` operation applies
`days = min(days, 30)` before running `get_daily_stats`, whose loop emits one
entry per offset, so a request for more than 30 days yields at most 30 daily
entries. -/
theorem get_daily_browsing_stats_cap (env : StatsEnv) (days : ℤ) (h : 30 < days) :
    (get_daily_browsing_stats env days).length ≤ 30 := by
  unfold get_daily_browsing_stats get_daily_stats
  simp only [List.length_map, List.length_range]
  omega

/-- An environment with an empty history store (used to instantiate the
universally quantified stats theorems). -/
def demoEnv : StatsEnv :=
  { readHistory := fun _ => .ok [], ai := fun _ => [],
    startOfDay := fun _ => 0, endOfDay := fun _ => 86399,
    dateStr := fun _ => "2026-10-12", dayName := fun _ => "Monday" }

/-- Witness for C4: a request for 31 days returns at most 30 entries. -/
theorem get_daily_browsing_stats_cap_witness :
    (get_daily_browsing_stats demoEnv 31).length ≤ 30 :=
  get_daily_browsing_stats_cap demoEnv 31 (by norm_num)

/-! ## C7: weekly average divides by 7 unconditionally -/

/-- C7.  `get_weekly_summary` always divides the summed 7-day total time by 7
(the guard `if daily_stats` is vacuous because `get_daily_stats(7)` always has
7 entries), and `days_with_data` counts exactly the days with nonzero
visits — for every environment, including those where fewer than 7 days have
any visits. -/
theorem get_weekly_summary_avg (env : StatsEnv) :
    (get_weekly_summary env).avg_daily_time
        = (sumBy (get_daily_stats env 7) (fun d => d.total_time) : ℚ) / 7
    ∧ (get_weekly_summary env).days_with_data
        = ((get_daily_stats env 7).filter (fun d => 0 < d.total_visits)).length := by
  constructor
  · have hne : (get_daily_stats env 7).isEmpty = false := by
      simp [get_daily_stats, List.isEmpty_iff, List.range_succ]
    simp only [get_weekly_summary, hne, Bool.false_eq_true, if_false]
  · rfl

/-! ## C2: Chrome timestamp conversion is NOT exact integer arithmetic -/

/-- C2 (refuting the exactness of the code's arithmetic).  At the valid input
`13412345678901237` (a 2026 Chrome timestamp, i.e. microseconds since
1601-01-01), the value `convert_chrome_timestamp` computes with Python float
division differs from the exact rational
`chrome_time / 10^6 − 11644473600` required by the spec: binary64 division
cannot represent microsecond precision at this magnitude (the quotient
exceeds 2^33 seconds, so the unit in the last place is about 2 microseconds).
The code computes `231718529125743/131072 = 1767872078.9012370109…` where the
exact value is `1767872078.901237`. -/
theorem convert_chrome_timestamp_inexact :
    fracVal (convert_chrome_timestamp 13412345678901237)
      ≠ chrome_to_unix_exact 13412345678901237 := by
  have hc : convert_chrome_timestamp 13412345678901237 = ⟨7414992932023776, 4194304⟩ := by
    decide
  rw [hc]
  unfold fracVal chrome_to_unix_exact CHROME_EPOCH_OFFSET
  intro h
  norm_num at h

/-! ## C3: duration estimation rules -/

theorem assignDurations_length (l : List Visit) :
    (assignDurations l).length = l.length := by
  induction l using assignDurations.induct with
  | case1 => rfl
  | case2 v => rfl
  | case3 v w rest ih => simp [assignDurations, ih]

theorem assignDurations_time (l : List Visit) (i : ℕ) :
    ((assignDurations l)[i]?).map Visit.visit_time = (l[i]?).map Visit.visit_time := by
  induction l using assignDurations.induct generalizing i with
  | case1 => rfl
  | case2 v =>
    match i with
    | 0 => rfl
    | _ + 1 => rfl
  | case3 v w rest ih =>
    match i with
    | 0 => simp [assignDurations]
    | j + 1 =>
      have step : assignDurations (v :: w :: rest)
          = { v with duration_seconds := visitDuration v w } :: assignDurations (w :: rest) := rfl
      rw [step, List.getElem?_cons_succ, List.getElem?_cons_succ]
      exact ih j

theorem assignDurations_duration (l : List Visit) (i : ℕ) (cur next : Visit)
    (hc : l[i]? = some cur) (hn : l[i + 1]? = some next) :
    ((assignDurations l)[i]?).map Visit.duration_seconds = some (visitDuration cur next) := by
  induction l using assignDurations.induct generalizing i with
  | case1 => simp at hc
  | case2 v =>
    match i with
    | 0 => simp at hn
    | _ + 1 => simp at hc
  | case3 v w rest ih =>
    match i with
    | 0 =>
      have hcv : cur = v := by simpa using hc.symm
      have hnw : next = w := by
        have h2 : (w :: rest)[0]? = some next := by
          rw [← hn]
          exact (List.getElem?_cons_succ ..).symm
        simpa using h2.symm
      subst hcv
      subst hnw
      simp [assignDurations]
    | j + 1 =>
      rw [List.getElem?_cons_succ] at hc
      rw [List.getElem?_cons_succ (l := w :: rest)] at hn
      have step : assignDurations (v :: w :: rest)
          = { v with duration_seconds := visitDuration v w } :: assignDurations (w :: rest) := rfl
      rw [step, List.getElem?_cons_succ]
      exact ih j hc hn

theorem assignDurations_last (l : List Visit) (hl : l ≠ []) :
    ((assignDurations l).getLast?).map Visit.duration_seconds
      = some (max 0 DEFAULT_FINAL_VISIT) := by
  induction l using assignDurations.induct with
  | case1 => exact absurd rfl hl
  | case2 v => rfl
  | case3 v w rest ih =>
    obtain ⟨y, ys, hy⟩ : ∃ y ys, assignDurations (w :: rest) = y :: ys := by
      cases rest with
      | nil => exact ⟨_, _, rfl⟩
      | cons r rs => exact ⟨_, _, rfl⟩
    have step : assignDurations (v :: w :: rest)
        = { v with duration_seconds := visitDuration v w } :: assignDurations (w :: rest) := rfl
    rw [step, hy, List.getLast?_cons_cons, ← hy]
    exact ih (by simp)

theorem assignDurations_nonneg (l : List Visit) :
    ∀ v ∈ assignDurations l, 0 ≤ v.duration_seconds := by
  induction l using assignDurations.induct with
  | case1 => intro v hv; simp [assignDurations] at hv
  | case2 w =>
    intro v hv
    simp [assignDurations] at hv
    subst hv
    exact le_max_left 0 _
  | case3 v2 w rest ih =>
    intro v hv
    rcases List.mem_cons.mp hv with h | h
    · subst h
      exact le_max_left 0 _
    · exact ih v h

theorem sortVisits_pair (l : List Visit) (i : ℕ) (a b : Visit)
    (ha : (sortVisits l)[i]? = some a) (hb : (sortVisits l)[i + 1]? = some b) :
    a.visit_time ≤ b.visit_time := by
  have hs : (sortVisits l).Sorted visitTimeLE := List.sorted_insertionSort visitTimeLE l
  obtain ⟨hia, hga⟩ := List.getElem?_eq_some_iff.mp ha
  obtain ⟨hib, hgb⟩ := List.getElem?_eq_some_iff.mp hb
  have := hs.rel_get_of_lt (a := ⟨i, hia⟩) (b := ⟨i + 1, hib⟩) (by simp)
  simpa [visitTimeLE, List.get_eq_getElem, hga, hgb] using this

/-- C3.  In the output of `estimate_visit_duration` (the input re-sorted
ascending by timestamp and annotated): every visit with a successor gets
duration `min(gap, 1800)`; when the gap exceeds 1800 the duration is exactly
1800; the final visit gets exactly 60; and every duration is non-negative. -/
theorem estimate_visit_duration_spec (visits : List Visit) :
    (∀ i cur next, (estimate_visit_duration visits)[i]? = some cur →
        (estimate_visit_duration visits)[i + 1]? = some next →
        cur.duration_seconds = min (next.visit_time - cur.visit_time) 1800)
    ∧ (∀ i cur next, (estimate_visit_duration visits)[i]? = some cur →
        (estimate_visit_duration visits)[i + 1]? = some next →
        1800 < next.visit_time - cur.visit_time → cur.duration_seconds = 1800)
    ∧ (∀ last, (estimate_visit_duration visits).getLast? = some last →
        last.duration_seconds = 60)
    ∧ (∀ v ∈ estimate_visit_duration visits, 0 ≤ v.duration_seconds) := by
  by_cases hempty : visits.isEmpty
  · have h0 : estimate_visit_duration visits = [] := by
      rw [estimate_visit_duration, if_pos hempty]
      exact List.isEmpty_iff.mp hempty
    refine ⟨?_, ?_, ?_, ?_⟩ <;> simp [h0]
  have hout : estimate_visit_duration visits = assignDurations (sortVisits visits) := by
    rw [estimate_visit_duration, if_neg hempty]
  have key : ∀ i cur next, (estimate_visit_duration visits)[i]? = some cur →
      (estimate_visit_duration visits)[i + 1]? = some next →
      cur.duration_seconds = min (next.visit_time - cur.visit_time) 1800 := by
    intro i cur next hc hn
    rw [hout] at hc hn
    -- the sorted input entries under the annotated entries
    have hc2 := assignDurations_time (sortVisits visits) i
    have hn2 := assignDurations_time (sortVisits visits) (i + 1)
    rw [hc] at hc2
    rw [hn] at hn2
    obtain ⟨s, hs, hst⟩ : ∃ s, (sortVisits visits)[i]? = some s ∧ s.visit_time = cur.visit_time := by
      cases hx : (sortVisits visits)[i]? with
      | none => rw [hx] at hc2; simp at hc2
      | some s => rw [hx] at hc2; simp at hc2; exact ⟨s, rfl, hc2.symm⟩
    obtain ⟨t, ht, htt⟩ : ∃ t, (sortVisits visits)[i + 1]? = some t
        ∧ t.visit_time = next.visit_time := by
      cases hx : (sortVisits visits)[i + 1]? with
      | none => rw [hx] at hn2; simp at hn2
      | some t => rw [hx] at hn2; simp at hn2; exact ⟨t, rfl, hn2.symm⟩
    have hdur := assignDurations_duration (sortVisits visits) i s t hs ht
    rw [hc] at hdur
    simp only [Option.map_some', Option.some_inj] at hdur
    have hgap : s.visit_time ≤ t.visit_time := sortVisits_pair visits i s t hs ht
    rw [hdur]
    have harith : visitDuration s t = min (t.visit_time - s.visit_time) 1800 := by
      simp only [visitDuration, MAX_VISIT_TIME, SESSION_GAP]
      split_ifs with hbig <;> omega
    rw [harith, hst, htt]
  refine ⟨key, fun i cur next hc hn hbig => ?_, fun last hlast => ?_, fun v hv => ?_⟩
  · rw [key i cur next hc hn]
    omega
  · rw [hout] at hlast
    have hne : sortVisits visits ≠ [] := by
      have : (sortVisits visits).length = visits.length := List.length_insertionSort _ _
      intro hnil
      rw [hnil] at this
      cases visits with
      | nil => exact hempty rfl
      | cons a l => simp at this
    have := assignDurations_last (sortVisits visits) hne
    rw [hlast] at this
    simp only [Option.map_some', Option.some_inj] at this
    rw [this]
    rfl
  · rw [hout] at hv
    exact assignDurations_nonneg (sortVisits visits) v hv

/-- Three visits: successive gaps of 300 s and 2000 s. -/
def demoVisits : List Visit :=
  [{ url := "https://example.com/a", title := "A", visit_time := 0 },
   { url := "https://example.com/b", title := "B", visit_time := 300 },
   { url := "https://video.net/x", title := "X", visit_time := 2300 }]

/-- The first annotated demo visit: a 300 s gap gives duration 300. -/
def demoOut0 : Visit :=
  { url := "https://example.com/a", title := "A", visit_time := 0, duration_seconds := 300 }

/-- The second annotated demo visit: a 2000 s gap is capped at 1800. -/
def demoOut1 : Visit :=
  { url := "https://example.com/b", title := "B", visit_time := 300, duration_seconds := 1800 }

/-- The final annotated demo visit: fixed 60 s. -/
def demoOut2 : Visit :=
  { url := "https://video.net/x", title := "X", visit_time := 2300, duration_seconds := 60 }

/-- Witness for C3 on `demoVisits`: the first visit's duration equals
`min(gap, 1800)` and the final visit gets 60. -/
theorem estimate_visit_duration_spec_witness :
    demoOut0.duration_seconds = min (demoOut1.visit_time - demoOut0.visit_time) 1800
    ∧ demoOut2.duration_seconds = 60 :=
  ⟨(estimate_visit_duration_spec demoVisits).1 0 demoOut0 demoOut1 (by decide) (by decide),
   (estimate_visit_duration_spec demoVisits).2.2.1 demoOut2 (by decide)⟩

/-! ## C5: sum laws of the two aggregation steps -/

theorem aggregate_by_domain_sum_aux (visits : List Visit) :
    ∀ m : List (String × DomData),
      sumBy (visits.foldl (fun m v =>
          updateAssoc m (extract_domain v.url) (addVisitToDomain v)
            (emptyDomData (extract_domain v.url))) m)
        (fun p => p.2.total_duration)
      = sumBy m (fun p => p.2.total_duration) + sumBy visits (fun v => v.duration_seconds) := by
  induction visits with
  | nil => intro m; simp [sumBy]
  | cons v vs ih =>
    intro m
    rw [List.foldl_cons, ih]
    have hstep := sumBy_updateAssoc DomData.total_duration (addVisitToDomain v)
      (emptyDomData (extract_domain v.url)) v.duration_seconds
      (fun a => rfl) rfl m (extract_domain v.url)
    simp only [sumBy, List.map_cons, List.sum_cons] at hstep ⊢
    rw [hstep]
    ring

theorem aggregate_by_category_sum_aux (domain_data : List (String × DomData))
    (categorization : List (String × String)) :
    ∀ m : List (String × CatData),
      sumBy (domain_data.foldl (fun m p =>
          updateAssoc m ((categorization.lookup p.1).getD "other")
            (addDomainToCategory p.1 p.2)
            (emptyCatData ((categorization.lookup p.1).getD "other"))) m)
        (fun p => p.2.total_duration)
      = sumBy m (fun p => p.2.total_duration)
        + sumBy domain_data (fun p => p.2.total_duration) := by
  induction domain_data with
  | nil => intro m; simp [sumBy]
  | cons q qs ih =>
    intro m
    rw [List.foldl_cons, ih]
    have hstep := sumBy_updateAssoc CatData.total_duration (addDomainToCategory q.1 q.2)
      (emptyCatData ((categorization.lookup q.1).getD "other")) q.2.total_duration
      (fun a => rfl) rfl m ((categorization.lookup q.1).getD "other")
    simp only [sumBy, List.map_cons, List.sum_cons] at hstep ⊢
    rw [hstep]
    ring

/-- C5.  Sum laws: `aggregate_by_domain` preserves the total of
`duration_seconds` over the visits, and `aggregate_by_category` preserves the
total of `total_duration` over the domain aggregates, for every
categorization mapping. -/
theorem aggregate_sum_laws :
    (∀ visits : List Visit,
      sumBy (aggregate_by_domain visits) (fun p => p.2.total_duration)
        = sumBy visits (fun v => v.duration_seconds))
    ∧ (∀ (domain_data : List (String × DomData)) (categorization : List (String × String)),
      sumBy (aggregate_by_category domain_data categorization)
          (fun p => p.2.total_duration)
        = sumBy domain_data (fun p => p.2.total_duration)) := by
  constructor
  · intro visits
    have := aggregate_by_domain_sum_aux visits []
    simpa [aggregate_by_domain, sumBy] using this
  · intro domain_data categorization
    have hfold := aggregate_by_category_sum_aux domain_data categorization []
    have hmap : sumBy (aggregate_by_category domain_data categorization)
        (fun p => p.2.total_duration)
        = sumBy (domain_data.foldl (fun m p =>
            updateAssoc m ((categorization.lookup p.1).getD "other")
              (addDomainToCategory p.1 p.2)
              (emptyCatData ((categorization.lookup p.1).getD "other"))) [])
          (fun p => p.2.total_duration) := by
      simp [aggregate_by_category, sumBy, List.map_map]
      rfl
    rw [hmap, hfold]
    simp [sumBy]

/-! ## C10: category aggregation is a partition of the input domains -/

/-- All domain names listed across the category aggregates of `m`. -/
def catDomains (m : List (String × CatData)) : List String :=
  m.flatMap (fun p => p.2.domains.map (fun d => d.domain))

theorem catDomains_updateAssoc (m : List (String × CatData)) (k dom : String)
    (data : DomData) :
    List.Perm
      (catDomains (updateAssoc m k (addDomainToCategory dom data) (emptyCatData k)))
      (dom :: catDomains m) := by
  induction m with
  | nil => simp [updateAssoc, catDomains, addDomainToCategory, emptyCatData]
  | cons hd tl ih =>
    obtain ⟨k2, a⟩ := hd
    by_cases hk : k2 = k
    · simp only [updateAssoc, if_pos hk, catDomains, List.flatMap_cons, addDomainToCategory,
        List.map_append, List.map_cons, List.map_nil, List.append_assoc, List.singleton_append]
      exact List.perm_middle
    · simp only [updateAssoc, if_neg hk, catDomains, List.flatMap_cons]
      have h1 := (ih.append_left (a.domains.map (fun d => d.domain)))
      refine h1.trans ?_
      exact List.perm_middle

theorem catDomains_fold (categorization : List (String × String))
    (dd : List (String × DomData)) :
    ∀ m : List (String × CatData),
      List.Perm
        (catDomains (dd.foldl (fun m p =>
          updateAssoc m ((categorization.lookup p.1).getD "other")
            (addDomainToCategory p.1 p.2)
            (emptyCatData ((categorization.lookup p.1).getD "other"))) m))
        (catDomains m ++ dd.map Prod.fst) := by
  induction dd with
  | nil => intro m; simp
  | cons q qs ih =>
    intro m
    rw [List.foldl_cons]
    refine (ih _).trans ?_
    have h1 := (catDomains_updateAssoc m ((categorization.lookup q.1).getD "other")
      q.1 q.2).append_right (qs.map Prod.fst)
    refine h1.trans ?_
    simp only [List.map_cons, List.cons_append]
    exact (List.perm_middle).symm

theorem catDomains_map_sort (m : List (String × CatData)) :
    List.Perm
      (catDomains (m.map (fun p =>
        (p.1, { p.2 with domains := sortDescBy (fun d => d.duration) p.2.domains }))))
      (catDomains m) := by
  induction m with
  | nil => simp [catDomains]
  | cons hd tl ih =>
    simp only [catDomains, List.map_cons, List.flatMap_cons]
    exact ((sortDescBy_perm (fun d => d.duration) hd.2.domains).map
      (fun d => d.domain)).append ih

theorem lookup_domains_step (categorization : List (String × String))
    (m : List (String × CatData)) (q : String × DomData) (k x : String)
    (h : ∃ c, m.lookup k = some c ∧ x ∈ c.domains.map (fun d => d.domain)) :
    ∃ c, ((updateAssoc m ((categorization.lookup q.1).getD "other")
        (addDomainToCategory q.1 q.2)
        (emptyCatData ((categorization.lookup q.1).getD "other"))).lookup k) = some c
      ∧ x ∈ c.domains.map (fun d => d.domain) := by
  obtain ⟨c, hc, hx⟩ := h
  by_cases hk : ((categorization.lookup q.1).getD "other") = k
  · subst hk
    refine ⟨_, lookup_updateAssoc_self m _ _ _, ?_⟩
    rw [hc]
    simp only [Option.getD_some, addDomainToCategory, List.map_append]
    exact List.mem_append_left _ hx
  · rw [lookup_updateAssoc_other _ _ _ _ _ (fun hh => hk hh.symm)]
    exact ⟨c, hc, hx⟩

theorem lookup_domains_fold (categorization : List (String × String))
    (dd : List (String × DomData)) :
    ∀ (m : List (String × CatData)) (k x : String),
      (∃ c, m.lookup k = some c ∧ x ∈ c.domains.map (fun d => d.domain)) →
      ∃ c, ((dd.foldl (fun m p =>
          updateAssoc m ((categorization.lookup p.1).getD "other")
            (addDomainToCategory p.1 p.2)
            (emptyCatData ((categorization.lookup p.1).getD "other"))) m).lookup k) = some c
        ∧ x ∈ c.domains.map (fun d => d.domain) := by
  induction dd with
  | nil => intro m k x h; exact h
  | cons q qs ih =>
    intro m k x h
    rw [List.foldl_cons]
    exact ih _ k x (lookup_domains_step categorization m q k x h)

theorem lookup_domains_self (categorization : List (String × String))
    (dd : List (String × DomData)) :
    ∀ p ∈ dd, ∀ m : List (String × CatData),
      ∃ c, ((dd.foldl (fun m p =>
          updateAssoc m ((categorization.lookup p.1).getD "other")
            (addDomainToCategory p.1 p.2)
            (emptyCatData ((categorization.lookup p.1).getD "other"))) m).lookup
          ((categorization.lookup p.1).getD "other")) = some c
        ∧ p.1 ∈ c.domains.map (fun d => d.domain) := by
  induction dd with
  | nil => intro p hp; simp at hp
  | cons q qs ih =>
    intro p hp m
    rw [List.foldl_cons]
    rcases List.mem_cons.mp hp with rfl | hp2
    · apply lookup_domains_fold
      refine ⟨_, lookup_updateAssoc_self m _ _ _, ?_⟩
      simp [addDomainToCategory]
    · exact ih p hp2 _

theorem lookup_map_sortEntry (m : List (String × CatData)) (k : String) :
    ((m.map (fun p =>
        (p.1, { p.2 with domains := sortDescBy (fun d => d.duration) p.2.domains }))).lookup k)
      = (m.lookup k).map
          (fun c => { c with domains := sortDescBy (fun d => d.duration) c.domains }) := by
  induction m with
  | nil => rfl
  | cons hd tl ih =>
    obtain ⟨k2, a⟩ := hd
    by_cases hk : k = k2
    · subst hk
      simp [List.lookup]
    · have hb : (k == k2) = false := beq_eq_false_iff_ne.mpr hk
      simp [List.lookup, hb, ih]

/-- C10.  `aggregate_by_category` partitions the input domains: the multiset
of domain names listed across all category aggregates is exactly the multiset
of input domain keys, and every input domain appears inside the aggregate of
`categorization.get(domain, 'other')` — so a domain missing from the
categorization mapping is placed in `"other"`, and no domain is dropped. -/
theorem aggregate_by_category_partition (domain_data : List (String × DomData))
    (categorization : List (String × String)) :
    List.Perm
      ((aggregate_by_category domain_data categorization).flatMap
        (fun p => p.2.domains.map (fun d => d.domain)))
      (domain_data.map Prod.fst)
    ∧ ∀ p ∈ domain_data, ∃ c,
        (aggregate_by_category domain_data categorization).lookup
            ((categorization.lookup p.1).getD "other") = some c
        ∧ p.1 ∈ c.domains.map (fun d => d.domain) := by
  have hagg : aggregate_by_category domain_data categorization
      = ((domain_data.foldl (fun m p =>
          updateAssoc m ((categorization.lookup p.1).getD "other")
            (addDomainToCategory p.1 p.2)
            (emptyCatData ((categorization.lookup p.1).getD "other"))) []).map
        (fun p => (p.1, { p.2 with domains := sortDescBy (fun d => d.duration) p.2.domains }))) :=
    rfl
  constructor
  · show List.Perm (catDomains (aggregate_by_category domain_data categorization)) _
    rw [hagg]
    refine (catDomains_map_sort _).trans ?_
    simpa [catDomains] using catDomains_fold categorization domain_data []
  · intro p hp
    obtain ⟨c, hc, hx⟩ := lookup_domains_self categorization domain_data p hp []
    refine ⟨{ c with domains := sortDescBy (fun d => d.duration) c.domains }, ?_, ?_⟩
    · rw [hagg, lookup_map_sortEntry, hc]
      rfl
    · exact ((sortDescBy_perm (fun d => d.duration) c.domains).map
        (fun d => d.domain)).mem_iff.mpr hx

/-- A demo aggregate for a single uncategorized domain. -/
def demoDomData : DomData :=
  { domain := "zzz.example", total_duration := 120, visit_count := 2, urls := [], titles := [] }

/-- The `"other"` aggregate that `aggregate_by_category` produces for
`demoDomData` under the empty categorization. -/
def demoOtherCat : CatData :=
  { category := "other", total_duration := 120, visit_count := 2,
    domains := [{ domain := "zzz.example", duration := 120, visit_count := 2, titles := [] }] }

/-- Witness for C10: with an empty categorization mapping, the lone domain
lands in the `"other"` aggregate. -/
theorem aggregate_by_category_partition_witness :
    (aggregate_by_category [("zzz.example", demoDomData)] []).lookup "other"
        = some demoOtherCat
    ∧ "zzz.example" ∈ demoOtherCat.domains.map (fun d => d.domain) := by
  obtain ⟨c, hc, hx⟩ :=
    (aggregate_by_category_partition [("zzz.example", demoDomData)] []).2
      ("zzz.example", demoDomData) (by decide)
  have hcl : (aggregate_by_category [("zzz.example", demoDomData)] []).lookup "other"
      = some c := hc
  have hce : c = demoOtherCat := by
    have h2 : (aggregate_by_category [("zzz.example", demoDomData)] []).lookup "other"
        = some demoOtherCat := by decide
    rw [hcl] at h2
    exact Option.some_inj.mp h2
  rw [hce] at hcl hx
  exact ⟨hcl, hx⟩

/-! ## C1 and C9: categorizer totality and the empty-oracle reduction -/

theorem heuristic_categorize_mem (d : String) (ts : List String) :
    heuristic_categorize d ts ∈ categoryNames := by
  have hkeys : ∀ q ∈ DOMAIN_PATTERNS, q.1 ∈ categoryNames := by decide
  simp only [heuristic_categorize]
  cases hf : DOMAIN_PATTERNS.find?
      (fun p => p.2.any (fun pat => strContains (strLower d) pat)) with
  | some p => exact hkeys p (List.mem_of_find?_eq_some hf)
  | none => split_ifs <;> decide

theorem flatMap_chunks20_map {A B : Type} (g : A → B) (l : List A) :
    (chunks20 l).flatMap (fun b => b.map g) = l.map g := by
  rw [List.flatMap_def]
  calc ((chunks20 l).map (fun b => b.map g)).flatten
      = ((chunks20 l).flatten).map g := (List.map_flatten ..).symm
    _ = l.map g := by rw [chunks20_flatten]

theorem secondPass_keys (ai : List (String × List String) → List (String × String))
    (u : List (String × List String)) :
    (((chunks20 u).flatMap (fun batch =>
      batch.map (fun q =>
        match (ai batch).lookup q.1 with
        | some c => (q.1, c)
        | none => (q.1, heuristic_categorize q.1 q.2)))).map Prod.fst)
      = u.map Prod.fst := by
  rw [List.map_flatMap]
  have hbatch : ∀ batch : List (String × List String),
      ((batch.map (fun q =>
        match (ai batch).lookup q.1 with
        | some c => (q.1, c)
        | none => (q.1, heuristic_categorize q.1 q.2))).map Prod.fst)
        = batch.map Prod.fst := by
    intro batch
    rw [List.map_map]
    refine List.map_congr_left (fun q _ => ?_)
    simp only [Function.comp_apply]
    cases (ai batch).lookup q.1 <;> rfl
  calc (chunks20 u).flatMap (fun b =>
        (b.map (fun q =>
          match (ai b).lookup q.1 with
          | some c => (q.1, c)
          | none => (q.1, heuristic_categorize q.1 q.2))).map Prod.fst)
      = (chunks20 u).flatMap (fun b => b.map Prod.fst) := by
        rw [List.flatMap_def, List.flatMap_def]
        exact congrArg List.flatten (List.map_congr_left (fun b _ => hbatch b))
    _ = ((chunks20 u).flatten).map Prod.fst := by
        rw [List.flatMap_def]
        exact (List.map_flatten ..).symm
    _ = u.map Prod.fst := by rw [chunks20_flatten]

theorem categorize_keys_split (dd : List (String × DomData)) :
    List.Perm
      (((dd.filterMap (fun p =>
          let category := heuristic_categorize p.1 p.2.titles
          if category = "other" then none else some (p.1, category))).map Prod.fst)
        ++ ((dd.filterMap (fun p =>
          if heuristic_categorize p.1 p.2.titles = "other" then some (p.1, p.2.titles)
          else none)).map Prod.fst))
      (dd.map Prod.fst) := by
  induction dd with
  | nil => simp
  | cons q qs ih =>
    by_cases hq : heuristic_categorize q.1 q.2.titles = "other"
    · simp only [List.filterMap_cons, hq, if_pos, List.map_cons, reduceIte]
      exact List.perm_middle.trans (ih.cons q.1)
    · simp only [List.filterMap_cons, if_neg hq, List.map_cons, List.cons_append]
      exact ih.cons q.1

theorem categorize_keys_perm (ai : List (String × List String) → List (String × String))
    (dd : List (String × DomData)) :
    List.Perm ((categorize_domains_with_ai ai dd).map Prod.fst) (dd.map Prod.fst) := by
  simp only [categorize_domains_with_ai]
  split_ifs with hu
  · have h2 := categorize_keys_split dd
    rw [List.isEmpty_iff.mp hu] at h2
    simpa using h2
  · rw [List.map_append, secondPass_keys]
    exact categorize_keys_split dd

theorem categorize_values (ai : List (String × List String) → List (String × String))
    (dd : List (String × DomData))
    (hai : ∀ batch d c, (d, c) ∈ ai batch → c ∈ categoryNames) :
    ∀ p ∈ categorize_domains_with_ai ai dd, p.2 ∈ categoryNames := by
  have hfp : ∀ p, p ∈ dd.filterMap (fun p =>
      let category := heuristic_categorize p.1 p.2.titles
      if category = "other" then none else some (p.1, category)) → p.2 ∈ categoryNames := by
    intro p hp
    obtain ⟨r, _, hfr⟩ := List.mem_filterMap.mp hp
    by_cases h : heuristic_categorize r.1 r.2.titles = "other"
    · simp [h] at hfr
    · simp only [if_neg h] at hfr
      rw [← Option.some_inj.mp hfr]
      exact heuristic_categorize_mem r.1 r.2.titles
  have hsp : ∀ p, p ∈ (chunks20 (dd.filterMap (fun p =>
        if heuristic_categorize p.1 p.2.titles = "other" then some (p.1, p.2.titles)
        else none))).flatMap (fun batch =>
        batch.map (fun q =>
          match (ai batch).lookup q.1 with
          | some c => (q.1, c)
          | none => (q.1, heuristic_categorize q.1 q.2))) → p.2 ∈ categoryNames := by
    intro p hp
    obtain ⟨batch, _, hpb⟩ := List.mem_flatMap.mp hp
    obtain ⟨q, _, hq⟩ := List.mem_map.mp hpb
    cases hlook : (ai batch).lookup q.1 with
    | some c =>
      rw [hlook] at hq
      rw [← hq]
      exact hai batch q.1 c (lookup_mem_pairs hlook)
    | none =>
      rw [hlook] at hq
      rw [← hq]
      exact heuristic_categorize_mem q.1 q.2
  intro p hp
  simp only [categorize_domains_with_ai] at hp
  split_ifs at hp with hu
  · exact hfp p hp
  · rcases List.mem_append.mp hp with h | h
    · exact hfp p h
    · exact hsp p h

/-- C1.  `categorize_domains_with_ai` is total with values in the closed
10-category set: for every domain-aggregate map and every remote classifier
whose responses only use categories from the closed set (in particular one
that always fails with `{}` or returns any partial response), the output's
keys are exactly the input domains (as a multiset, hence exactly one category
per domain) and every assigned category is in the closed set. -/
theorem categorize_domains_with_ai_total
    (ai : List (String × List String) → List (String × String))
    (domain_data : List (String × DomData))
    (hai : ∀ batch d c, (d, c) ∈ ai batch → c ∈ categoryNames) :
    List.Perm ((categorize_domains_with_ai ai domain_data).map Prod.fst)
        (domain_data.map Prod.fst)
    ∧ ∀ p ∈ categorize_domains_with_ai ai domain_data, p.2 ∈ categoryNames :=
  ⟨categorize_keys_perm ai domain_data, categorize_values ai domain_data hai⟩

/-- A remote classifier returning a fixed partial, well-formed response. -/
def demoAi : List (String × List String) → List (String × String) :=
  fun _ => [("zzz.example", "news")]

/-- A two-domain aggregate map: one heuristically known domain, one not. -/
def demoDomainMap : List (String × DomData) :=
  [("github.com", { domain := "github.com", total_duration := 600, visit_count := 3,
                    urls := [], titles := [] }),
   ("zzz.example", demoDomData)]

/-- Witness for C1 with a partial remote response. -/
theorem categorize_domains_with_ai_total_witness :
    List.Perm ((categorize_domains_with_ai demoAi demoDomainMap).map Prod.fst)
      (demoDomainMap.map Prod.fst) :=
  (categorize_domains_with_ai_total demoAi demoDomainMap
    (by
      intro batch d c h
      simp only [demoAi, List.mem_singleton, Prod.mk.injEq] at h
      rw [h.2]
      decide)).1

theorem categorize_split_perm (dd : List (String × DomData)) :
    List.Perm
      ((dd.filterMap (fun p =>
          let category := heuristic_categorize p.1 p.2.titles
          if category = "other" then none else some (p.1, category)))
        ++ ((dd.filterMap (fun p =>
          if heuristic_categorize p.1 p.2.titles = "other" then some (p.1, p.2.titles)
          else none)).map (fun q => (q.1, heuristic_categorize q.1 q.2))))
      (dd.map (fun p => (p.1, heuristic_categorize p.1 p.2.titles))) := by
  induction dd with
  | nil => simp
  | cons q qs ih =>
    by_cases hq : heuristic_categorize q.1 q.2.titles = "other"
    · simp only [List.filterMap_cons, hq, if_pos, List.map_cons, reduceIte]
      exact List.perm_middle.trans (ih.cons _)
    · simp only [List.filterMap_cons, if_neg hq, List.map_cons, List.cons_append]
      exact ih.cons _

/-- C9.  Running `categorize_domains_with_ai` with a remote classifier stub
that returns nothing produces exactly the heuristic partition: as a multiset
of (domain, category) pairs it equals `heuristic_categorize` applied to every
input domain. -/
theorem categorize_empty_oracle (domain_data : List (String × DomData)) :
    List.Perm (categorize_domains_with_ai (fun _ => []) domain_data)
      (domain_data.map (fun p => (p.1, heuristic_categorize p.1 p.2.titles))) := by
  show List.Perm
    (if (domain_data.filterMap (fun p =>
        if heuristic_categorize p.1 p.2.titles = "other" then some (p.1, p.2.titles)
        else none)).isEmpty
      then (domain_data.filterMap (fun p =>
        let category := heuristic_categorize p.1 p.2.titles
        if category = "other" then none else some (p.1, category)))
      else (domain_data.filterMap (fun p =>
          let category := heuristic_categorize p.1 p.2.titles
          if category = "other" then none else some (p.1, category)))
        ++ (chunks20 (domain_data.filterMap (fun p =>
            if heuristic_categorize p.1 p.2.titles = "other" then some (p.1, p.2.titles)
            else none))).flatMap (fun batch =>
          batch.map (fun q => (q.1, heuristic_categorize q.1 q.2))))
    (domain_data.map (fun p => (p.1, heuristic_categorize p.1 p.2.titles)))
  split_ifs with hu
  · have h2 := categorize_split_perm domain_data
    rw [List.isEmpty_iff.mp hu] at h2
    simpa using h2
  · rw [flatMap_chunks20_map]
    exact categorize_split_perm domain_data

/-! ## C6: per-day failure isolation in `get_daily_stats` -/

/-- C6.  If reading one day's window fails, that day's entry is the
zero-value stat annotated with the error, while every day of the loop —
including the failing one — still yields exactly its own `processDay` result,
and the list always has one entry per requested day: a failing day never
affects its siblings and the loop never propagates the failure. -/
theorem get_daily_stats_error_isolated (env : StatsEnv) (days day_offset : ℕ) (e : String)
    (h : day_offset < days) (he : env.readHistory (24 * (day_offset + 1)) = .error e) :
    (get_daily_stats env days)[day_offset]? = some
      { date := env.dateStr day_offset, day_name := env.dayName day_offset,
        total_time := 0, total_visits := 0, unique_sites := 0,
        top_category := none, categories := [], error := some e }
    ∧ (∀ j, j < days → (get_daily_stats env days)[j]? = some (processDay env j))
    ∧ (get_daily_stats env days).length = days := by
  have hj : ∀ j, j < days → (get_daily_stats env days)[j]? = some (processDay env j) := by
    intro j hjd
    simp [get_daily_stats, hjd]
  refine ⟨?_, hj, by simp [get_daily_stats]⟩
  rw [hj day_offset h, processDay, he]
  rfl

/-- An environment whose most recent day's 24-hour read raises. -/
def errEnv : StatsEnv :=
  { readHistory := fun hours => if hours = 24 then .error "db locked" else .ok [],
    ai := fun _ => [], startOfDay := fun _ => 0, endOfDay := fun _ => 86399,
    dateStr := fun _ => "2026-10-12", dayName := fun _ => "Sunday" }

/-- Witness for C6: with `errEnv`, day 0 of 2 is the zero stat carrying the
error and the loop still returns both days. -/
theorem get_daily_stats_error_isolated_witness :
    (get_daily_stats errEnv 2)[0]? = some
      { date := "2026-10-12", day_name := "Sunday", total_time := 0, total_visits := 0,
        unique_sites := 0, top_category := none, categories := [], error := some "db locked" }
    ∧ (get_daily_stats errEnv 2).length = 2 :=
  ⟨(get_daily_stats_error_isolated errEnv 2 0 "db locked" (by norm_num) rfl).1,
   (get_daily_stats_error_isolated errEnv 2 0 "db locked" (by norm_num) rfl).2.2⟩
